import Mathlib

/-!
Verification of the Hopfield associative-memory core used by the course
notebook `mini-projects/02_hebbian_learning.ipynb`.

Patterns are flat vectors of rationals whose entries are ±1 (the 2-D display
shape is cosmetic and irrelevant to the dynamics, so a pattern is a flat
list).  The network operations `store_patterns`, `set_state_from_pattern`,
`step`, `run_with_monitoring` and the pattern tools `flip_n`,
`compute_overlap`, `compute_overlap_matrix` are provided to the notebook by
an external library and are modelled here from the specification.  The
function `get_noisy_copy` is defined in the notebook itself and is
translated from that source.

Randomness (index draws, coin flips) is passed explicitly as parameters;
the properties the library's sampling primitives guarantee (distinct
in-range indices, 0/1 coin values) appear as hypotheses of the theorems.
Stateful methods are embedded in state-passing style: a method of the
network returns the updated network, and a function that receives a
caller-owned array returns, next to its result, the contents of that array
after the call, so that absence of mutation is a provable statement.
-/

/-- A pattern: a flat vector of values, bipolar (±1) when well-formed. -/
abbrev Pattern := List ℚ

/-- A pattern is bipolar when every entry is exactly +1 or -1. -/
def isBipolar (p : Pattern) : Prop := ∀ x ∈ p, x = 1 ∨ x = -1

instance isBipolar_decidable (p : Pattern) : Decidable (isBipolar p) :=
  List.decidableBAll _ p

/-- Error taxonomy of the spec: dimension mismatches and invalid
parameters (probability, noise level or flip count out of range). -/
inductive HopfieldError where
  | dimensionMismatch
  | invalidParameter
deriving DecidableEq

/-- Modelled from the spec: the sign nonlinearity used by the synchronous
update (numpy `np.sign` convention: the sign of a zero net input is 0; the
spec leaves the tie-break open and no claim depends on it). -/
def np_sign (x : ℚ) : ℚ := if 0 < x then 1 else if x < 0 then -1 else 0

/-- Modelled from the spec: a Hopfield network holds the number of neurons,
an N×N weight matrix and a state vector of length N. -/
structure HopfieldNetwork where
  nrNeurons : Nat
  weights : List (List ℚ)
  state : List ℚ

/-- Modelled from the spec: a fresh, untrained network — the weight matrix
is the zero matrix; the (random) initial state is passed explicitly. -/
def HopfieldNetwork.new (n : Nat) (s0 : List ℚ) : HopfieldNetwork :=
  ⟨n, List.replicate n (List.replicate n 0), s0⟩

/-- Modelled from the spec: one entry of the Hebbian weight matrix,
`w i j = (Σ_μ p_μ[i] * p_μ[j]) / N`, with the diagonal zeroed (the
zero-diagonal, no-self-connection convention). -/
def hebb_entry (ps : List Pattern) (n i j : Nat) : ℚ :=
  if i = j then 0 else (ps.map (fun p => p.getD i 0 * p.getD j 0)).sum / n

/-- Modelled from the spec: the full N×N Hebbian weight matrix of a
pattern set. -/
def hebb_weights (ps : List Pattern) (n : Nat) : List (List ℚ) :=
  (List.range n).map (fun i => (List.range n).map (fun j => hebb_entry ps n i j))

/-- Modelled from the spec: `store_patterns(pattern_list)` recomputes the
whole weight matrix from the given pattern set (overwriting any previous
matrix); it fails with DimensionMismatch — leaving the network unchanged —
as soon as any pattern's length differs from N. -/
def HopfieldNetwork.store_patterns (net : HopfieldNetwork) (ps : List Pattern) :
    HopfieldNetwork × Option HopfieldError :=
  if ∀ p ∈ ps, p.length = net.nrNeurons then
    ({ net with weights := hebb_weights ps net.nrNeurons }, none)
  else (net, some .dimensionMismatch)

/-- Modelled from the spec: `set_state_from_pattern(pattern)` copies the
pattern into the state after the implicit sign projection (≥0 ↦ +1,
<0 ↦ -1); fails with DimensionMismatch on a length mismatch. -/
def HopfieldNetwork.set_state_from_pattern (net : HopfieldNetwork) (p : Pattern) :
    HopfieldNetwork × Option HopfieldError :=
  if p.length = net.nrNeurons then
    ({ net with state := p.map (fun x => if 0 ≤ x then (1 : ℚ) else -1) }, none)
  else (net, some .dimensionMismatch)

/-- Modelled from the spec: the local field of neuron i,
`Σ_j weight[i,j] * state[j]`. -/
def local_field (net : HopfieldNetwork) (i : Nat) : ℚ :=
  ∑ j ∈ Finset.range net.nrNeurons, (net.weights.getD i []).getD j 0 * net.state.getD j 0

/-- Modelled from the spec: `step()` — one synchronous update,
`new_state[i] = sign(Σ_j weight[i,j] * state[j])` for all i simultaneously,
every component computed from the same pre-step state. -/
def HopfieldNetwork.step (net : HopfieldNetwork) : HopfieldNetwork :=
  { net with state := (List.range net.nrNeurons).map (fun i => np_sign (local_field net i)) }

/-- Modelled from the spec: `run_with_monitoring(nr_steps)` applies
`step()` exactly nr_steps times, recording the trajectory: the state at
call time first, then the state after each step; it never stops early. -/
def HopfieldNetwork.run_with_monitoring (net : HopfieldNetwork) (nrSteps : Nat) :
    HopfieldNetwork × List (List ℚ) :=
  match nrSteps with
  | 0 => (net, [net.state])
  | Nat.succ m =>
      let r := HopfieldNetwork.run_with_monitoring net.step m
      (r.1, net.state :: r.2)

/-- The elementwise update `xs[idx] = vals` of numpy fancy assignment:
positionally, entry `idx[t]` is set to `vals[t]`. -/
def assignAt (xs : List ℚ) (idx : List Nat) (vals : List ℚ) : List ℚ :=
  (idx.zip vals).foldl (fun acc iv => acc.set iv.1 iv.2) xs

/-- Modelled from the spec: `flip_n(pattern, nr_of_flips)` returns a copy
with the positions drawn by `np.random.choice(N, k, replace=False)` (the
parameter `idx`) sign-inverted; it fails with InvalidParameter when
k > N.  The second component is the caller's pattern after the call (the
library flips a copy, never the argument). -/
def flip_n (p : Pattern) (k : Nat) (idx : List Nat) :
    Except HopfieldError Pattern × Pattern :=
  if k ≤ p.length then
    (.ok (assignAt p idx (idx.map (fun i => -(p.getD i 0)))), p)
  else (.error .invalidParameter, p)

/-- Modelled from the spec: the overlap value `(1/N) · dot(a, b)`. -/
def overlap_val (a b : Pattern) : ℚ :=
  (∑ j ∈ Finset.range a.length, a.getD j 0 * b.getD j 0) / a.length

/-- Modelled from the spec: `compute_overlap(pattern_a, pattern_b)`
returns `(1/N)·dot(a,b)`; requires equal length, else DimensionMismatch. -/
def compute_overlap (a b : Pattern) : Except HopfieldError ℚ :=
  if a.length = b.length then .ok (overlap_val a b) else .error .dimensionMismatch

/-- Modelled from the spec: `compute_overlap_matrix(pattern_list)` — the
P×P matrix of pairwise overlaps, including self-overlaps on the diagonal. -/
def compute_overlap_matrix (ps : List Pattern) : List (List ℚ) :=
  ps.map (fun a => ps.map (fun b => overlap_val a b))

/-- Python's one-argument `round` on a rational: round to the nearest
integer, ties to the even integer (banker's rounding). -/
def pyRound (q : ℚ) : ℤ :=
  if q - ⌊q⌋ < 1/2 then ⌊q⌋
  else if (1:ℚ)/2 < q - ⌊q⌋ then ⌊q⌋ + 1
  else if ⌊q⌋ % 2 = 0 then ⌊q⌋ else ⌊q⌋ + 1

/-- `nr_mutations = int(round(n * noise_level))` of the source. -/
def nr_mutations (n : Nat) (noiseLevel : ℚ) : Nat := (pyRound (n * noiseLevel)).toNat

/-- `get_noisy_copy(template, noise_level)`, translated from the notebook
source.  `idx` stands for the draw
`np.random.choice(n, nr_mutations, replace=False)` and `coins` for the
draw `np.random.binomial(1, 0.5, nr_mutations)`; the source maps the
coins to ±1 by `rand_values = rand_values * 2 - 1` and then reassigns the
drawn positions of a flattened copy of the template.  The second
component is the caller's template array after the call (the source
mutates only the copy `linear_template`, never `template`). -/
def get_noisy_copy (template : Pattern) (noiseLevel : ℚ)
    (idx : List Nat) (coins : List ℚ) :
    Except HopfieldError Pattern × Pattern :=
  if noiseLevel = 0 then (.ok template, template)
  else if noiseLevel < 0 ∨ 1 < noiseLevel then (.error .invalidParameter, template)
  else
    (.ok (assignAt template idx (coins.map (fun c => c * 2 - 1))), template)

/-- The set of positions (below the first list's length) where two
vectors differ. -/
def diff_positions (a b : List ℚ) : Finset Nat :=
  (Finset.range a.length).filter (fun i => a.getD i 0 ≠ b.getD i 0)

/-- Boolean check: the weight matrix is symmetric over the first N×N
block. -/
def weights_symmetric (net : HopfieldNetwork) : Bool :=
  (List.range net.nrNeurons).all (fun i => (List.range net.nrNeurons).all (fun j =>
    (net.weights.getD i []).getD j 0 == (net.weights.getD j []).getD i 0))

/-- Boolean check: the diagonal of the weight matrix is zero. -/
def weights_zero_diagonal (net : HopfieldNetwork) : Bool :=
  (List.range net.nrNeurons).all (fun i => (net.weights.getD i []).getD i 0 == 0)

/-- Boolean check: every entry of the state vector is ±1. -/
def state_bipolar (net : HopfieldNetwork) : Bool :=
  net.state.all (fun x => x == 1 || x == -1)

/-- A two-neuron network with symmetric, zero-diagonal weights on which
the synchronous dynamics oscillates. -/
def osc_net : HopfieldNetwork := ⟨2, [[0, -1], [-1, 0]], [1, 1]⟩

/-- C2: the network `osc_net` has a symmetric, zero-diagonal weight
matrix and the bipolar state (1,1); one synchronous `step()` changes the
state, a second returns it, so the dynamics cycles with period 2. -/
theorem synchronous_two_cycle :
    weights_symmetric osc_net = true ∧
    weights_zero_diagonal osc_net = true ∧
    state_bipolar osc_net = true ∧
    (HopfieldNetwork.step osc_net).state ≠ osc_net.state ∧
    (HopfieldNetwork.step (HopfieldNetwork.step osc_net)).state = osc_net.state := by
  refine ⟨by decide, by decide, by decide, ?_, ?_⟩ <;>
    norm_num [HopfieldNetwork.step, osc_net, local_field, np_sign,
      List.range_succ, Finset.sum_range_succ]

theorem getD_map_range {α : Type} (f : Nat → α) {n i : Nat} (d : α) (h : i < n) :
    ((List.range n).map f).getD i d = f i := by
  rw [List.getD_eq_getElem?_getD, List.getElem?_map, List.getElem?_range h]
  rfl

theorem getD_map_of_lt {α β : Type} (f : α → β) (l : List α) {i : Nat} (d : β) (da : α)
    (h : i < l.length) : (l.map f).getD i d = f (l.getD i da) := by
  rw [List.getD_eq_getElem?_getD, List.getElem?_map, List.getD_eq_getElem?_getD,
    List.getElem?_eq_getElem h]
  rfl

theorem getD_mem_of_lt {α : Type} (l : List α) {i : Nat} (d : α) (h : i < l.length) :
    l.getD i d ∈ l := by
  rw [List.getD_eq_getElem?_getD, List.getElem?_eq_getElem h]
  exact List.getElem_mem h

theorem isBipolar_getD {p : Pattern} (hb : isBipolar p) {i : Nat} (h : i < p.length) :
    p.getD i 0 = 1 ∨ p.getD i 0 = -1 :=
  hb _ (getD_mem_of_lt p 0 h)

theorem getD_set_self (xs : List ℚ) {i : Nat} (v d : ℚ) (h : i < xs.length) :
    (xs.set i v).getD i d = v := by
  rw [List.getD_eq_getElem?_getD, List.getElem?_set_self']
  simp [h]

theorem getD_set_ne (xs : List ℚ) {i j : Nat} (v d : ℚ) (h : i ≠ j) :
    (xs.set i v).getD j d = xs.getD j d := by
  rw [List.getD_eq_getElem?_getD, List.getElem?_set_ne h, List.getD_eq_getElem?_getD]

theorem assignAt_nil (xs : List ℚ) (vals : List ℚ) : assignAt xs [] vals = xs := rfl

theorem assignAt_nil_vals (xs : List ℚ) (a : Nat) (rest : List Nat) :
    assignAt xs (a :: rest) [] = xs := rfl

theorem assignAt_cons (xs : List ℚ) (a : Nat) (rest : List Nat) (v : ℚ) (vrest : List ℚ) :
    assignAt xs (a :: rest) (v :: vrest) = assignAt (xs.set a v) rest vrest := rfl

theorem assignAt_length (idx : List Nat) (vals : List ℚ) (xs : List ℚ) :
    (assignAt xs idx vals).length = xs.length := by
  induction idx generalizing vals xs with
  | nil => rfl
  | cons a rest ih =>
    cases vals with
    | nil => rfl
    | cons v vrest => rw [assignAt_cons, ih, List.length_set]

theorem assignAt_getD_of_not_mem {idx : List Nat} {i : Nat} (vals : List ℚ) (xs : List ℚ)
    (d : ℚ) (h : i ∉ idx) : (assignAt xs idx vals).getD i d = xs.getD i d := by
  induction idx generalizing vals xs with
  | nil => rfl
  | cons a rest ih =>
    cases vals with
    | nil => rfl
    | cons v vrest =>
      rw [assignAt_cons, ih _ _ (fun hm => h (List.mem_cons_of_mem a hm)),
        getD_set_ne xs v d (fun he => h (List.mem_cons.mpr (Or.inl he.symm)))]

theorem assignAt_getD_map (f : Nat → ℚ) {idx : List Nat} {i : Nat} (xs : List ℚ) (d : ℚ)
    (hnd : idx.Nodup) (hi : i ∈ idx) (hlt : i < xs.length) :
    (assignAt xs idx (idx.map f)).getD i d = f i := by
  induction idx generalizing xs with
  | nil => cases hi
  | cons a rest ih =>
    rw [List.map_cons, assignAt_cons]
    rcases List.mem_cons.mp hi with rfl | hmem
    · rw [assignAt_getD_of_not_mem _ _ _ (List.nodup_cons.mp hnd).1,
        getD_set_self xs (f i) d hlt]
    · exact ih (xs.set a (f a)) (List.nodup_cons.mp hnd).2 hmem
        (by rw [List.length_set]; exact hlt)

theorem assignAt_mem {x : ℚ} {idx : List Nat} {vals : List ℚ} {xs : List ℚ}
    (h : x ∈ assignAt xs idx vals) : x ∈ xs ∨ x ∈ vals := by
  induction idx generalizing vals xs with
  | nil => exact Or.inl h
  | cons a rest ih =>
    cases vals with
    | nil => exact Or.inl h
    | cons v vrest =>
      rw [assignAt_cons] at h
      rcases ih h with hx | hx
      · rcases List.mem_or_eq_of_mem_set hx with hx | rfl
        · exact Or.inl hx
        · exact Or.inr (List.mem_cons_self _ _)
      · exact Or.inr (List.mem_cons_of_mem _ hx)

/-- C9: the pattern-producing operations do not mutate their argument:
both `flip_n` and `get_noisy_copy` work on a copy, and the caller's array
holds exactly its original entries after the call. -/
theorem patterns_immutable (p : Pattern) (k : Nat) (idx : List Nat)
    (t : Pattern) (nl : ℚ) (jdx : List Nat) (coins : List ℚ) :
    (flip_n p k idx).2 = p ∧ (get_noisy_copy t nl jdx coins).2 = t := by
  constructor
  · unfold flip_n
    split <;> rfl
  · unfold get_noisy_copy
    split
    · rfl
    · split <;> rfl

/-- C4: `run_with_monitoring(nr_steps)` returns a trajectory of length
nr_steps+1 whose element 0 is the state at call time and whose element i
is the state after exactly i synchronous steps (so it applies `step()`
exactly nr_steps times and never stops early); the returned network is the
nr_steps-fold iterate. -/
theorem run_with_monitoring_spec (net : HopfieldNetwork) (n : Nat) :
    (net.run_with_monitoring n).2.length = n + 1 ∧
    (net.run_with_monitoring n).2.getD 0 [] = net.state ∧
    (∀ i, i ≤ n → (net.run_with_monitoring n).2.getD i [] =
      (HopfieldNetwork.step^[i] net).state) ∧
    (net.run_with_monitoring n).1 = HopfieldNetwork.step^[n] net := by
  induction n generalizing net with
  | zero =>
    refine ⟨rfl, rfl, ?_, rfl⟩
    intro i hi
    rw [Nat.le_zero.mp hi]
    rfl
  | succ m ih =>
    obtain ⟨ih1, ih2, ih3, ih4⟩ := ih net.step
    refine ⟨?_, rfl, ?_, ?_⟩
    · simp only [HopfieldNetwork.run_with_monitoring, List.length_cons, ih1]
    · intro i hi
      match i with
      | 0 => rfl
      | Nat.succ j =>
        simp only [HopfieldNetwork.run_with_monitoring, List.getD_cons_succ]
        rw [ih3 j (Nat.succ_le_succ_iff.mp hi), Function.iterate_succ_apply]
    · simp only [HopfieldNetwork.run_with_monitoring]
      rw [ih4, Function.iterate_succ_apply]

/-- C4 witness: at a concrete two-neuron network and nr_steps = 2, the
trajectory has length 3, starts at the call-time state, and its entry 1
is the state after one step. -/
theorem run_with_monitoring_spec_witness :
    ((HopfieldNetwork.new 2 [1, 1]).run_with_monitoring 2).2.length = 2 + 1 ∧
    ((HopfieldNetwork.new 2 [1, 1]).run_with_monitoring 2).2.getD 0 [] =
      (HopfieldNetwork.new 2 [1, 1]).state ∧
    (1 ≤ 2 ∧ ((HopfieldNetwork.new 2 [1, 1]).run_with_monitoring 2).2.getD 1 [] =
      (HopfieldNetwork.step^[1] (HopfieldNetwork.new 2 [1, 1])).state) :=
  ⟨(run_with_monitoring_spec (HopfieldNetwork.new 2 [1, 1]) 2).1,
   (run_with_monitoring_spec (HopfieldNetwork.new 2 [1, 1]) 2).2.1,
   by decide,
   (run_with_monitoring_spec (HopfieldNetwork.new 2 [1, 1]) 2).2.2.1 1 (by decide)⟩

/-- C6: storing a pattern set in which some pattern's length differs from
the network size fails the whole operation with DimensionMismatch and
leaves the network (in particular its weight matrix) unchanged. -/
theorem store_patterns_dimension_mismatch (net : HopfieldNetwork) (ps : List Pattern)
    (h : ∃ p ∈ ps, p.length ≠ net.nrNeurons) :
    net.store_patterns ps = (net, some HopfieldError.dimensionMismatch) := by
  unfold HopfieldNetwork.store_patterns
  rw [if_neg]
  intro hall
  obtain ⟨p, hp, hne⟩ := h
  exact hne (hall p hp)

/-- C6 witness: a 3-neuron network rejects a list holding a length-2
pattern and is returned unchanged. -/
theorem store_patterns_dimension_mismatch_witness :
    (∃ p ∈ [[1, -1, 1], ([1, -1] : Pattern)],
       p.length ≠ (HopfieldNetwork.new 3 [1, 1, 1]).nrNeurons) ∧
    (HopfieldNetwork.new 3 [1, 1, 1]).store_patterns [[1, -1, 1], [1, -1]] =
      (HopfieldNetwork.new 3 [1, 1, 1], some HopfieldError.dimensionMismatch) :=
  ⟨⟨[1, -1], by decide⟩,
   store_patterns_dimension_mismatch (HopfieldNetwork.new 3 [1, 1, 1])
     [[1, -1, 1], [1, -1]] ⟨[1, -1], by decide⟩⟩

/-- C3: calling `store_patterns` twice (first with A, then with B, all
patterns of the network's length) leaves the same weight matrix as calling
`store_patterns(B)` alone on any fresh network of the same size: the
second call overwrites, it does not accumulate. -/
theorem store_patterns_overwrites (net fresh : HopfieldNetwork)
    (A B : List Pattern)
    (hA : ∀ p ∈ A, p.length = net.nrNeurons)
    (hB : ∀ p ∈ B, p.length = net.nrNeurons)
    (hf : fresh.nrNeurons = net.nrNeurons) :
    (((net.store_patterns A).1).store_patterns B).1.weights =
      ((fresh.store_patterns B).1).weights := by
  unfold HopfieldNetwork.store_patterns
  rw [if_pos hA]
  rw [if_pos (by intro p hp; exact hB p hp)]
  rw [if_pos (by intro p hp; rw [hf]; exact hB p hp)]
  simp [hf]

/-- C3 witness: training on A = [(1,1)] then B = [(1,-1)] equals training
a fresh 2-neuron network on B alone. -/
theorem store_patterns_overwrites_witness :
    (∀ p ∈ [([1, 1] : Pattern)], p.length = (HopfieldNetwork.new 2 [1, 1]).nrNeurons) ∧
    (∀ p ∈ [([1, -1] : Pattern)], p.length = (HopfieldNetwork.new 2 [1, 1]).nrNeurons) ∧
    (HopfieldNetwork.new 2 [-1, -1]).nrNeurons = (HopfieldNetwork.new 2 [1, 1]).nrNeurons ∧
    ((((HopfieldNetwork.new 2 [1, 1]).store_patterns [[1, 1]]).1).store_patterns
        [[1, -1]]).1.weights =
      (((HopfieldNetwork.new 2 [-1, -1]).store_patterns [[1, -1]]).1).weights :=
  ⟨by decide, by decide, by decide,
   store_patterns_overwrites (HopfieldNetwork.new 2 [1, 1]) (HopfieldNetwork.new 2 [-1, -1])
     [[1, 1]] [[1, -1]] (by decide) (by decide) (by decide)⟩

theorem overlap_val_self {p : Pattern} (hb : isBipolar p) (hne : p ≠ []) :
    overlap_val p p = 1 := by
  unfold overlap_val
  rw [Finset.sum_congr rfl (fun j hj => ?_), Finset.sum_const, Finset.card_range,
    nsmul_eq_mul, mul_one]
  · have hlen : (p.length : ℚ) ≠ 0 :=
      Nat.cast_ne_zero.mpr (fun h => hne (List.length_eq_zero.mp h))
    field_simp
  · show p.getD j 0 * p.getD j 0 = 1
    rcases isBipolar_getD hb (Finset.mem_range.mp hj) with h | h <;> rw [h] <;> norm_num

/-- C7: the self-overlap of a (nonempty) bipolar pattern is 1, and every
diagonal entry of the overlap matrix of a list of (nonempty) bipolar
patterns is 1. -/
theorem overlap_diagonal_one (p : Pattern) (ps : List Pattern) (i : Nat)
    (hb : isBipolar p) (hne : p ≠ [])
    (hps : ∀ q ∈ ps, isBipolar q ∧ q ≠ []) (hi : i < ps.length) :
    compute_overlap p p = Except.ok 1 ∧
    ((compute_overlap_matrix ps).getD i []).getD i 0 = 1 := by
  constructor
  · unfold compute_overlap
    rw [if_pos rfl, overlap_val_self hb hne]
  · unfold compute_overlap_matrix
    rw [getD_map_of_lt _ _ _ [] hi, getD_map_of_lt _ _ _ [] hi]
    exact overlap_val_self (hps _ (getD_mem_of_lt ps [] hi)).1
      (hps _ (getD_mem_of_lt ps [] hi)).2

/-- C7 witness: at p = (1,-1) and the pattern list [(1,1),(1,-1)], the
self-overlap is 1 and the (1,1) entry of the overlap matrix is 1. -/
theorem overlap_diagonal_one_witness :
    isBipolar [1, -1] ∧ ([1, -1] : Pattern) ≠ [] ∧
    (∀ q ∈ [[1, 1], ([1, -1] : Pattern)], isBipolar q ∧ q ≠ []) ∧ 1 < 2 ∧
    compute_overlap [1, -1] [1, -1] = Except.ok 1 ∧
    ((compute_overlap_matrix [[1, 1], [1, -1]]).getD 1 []).getD 1 0 = 1 :=
  ⟨by decide, by decide, by decide, by decide,
   (overlap_diagonal_one [1, -1] [[1, 1], [1, -1]] 1 (by decide) (by decide)
     (by decide) (by decide)).1,
   (overlap_diagonal_one [1, -1] [[1, 1], [1, -1]] 1 (by decide) (by decide)
     (by decide) (by decide)).2⟩

/-- C5: `flip_n` with k ≤ N and `idx` the k distinct in-range positions
drawn by the library's sampler succeeds and returns a copy of p
sign-inverted exactly at those positions — so it differs from p in
exactly k positions; for k > N it fails with InvalidParameter regardless
of the drawn positions (the sampler's guarantees about `idx` condition
only the success half, since for k > N the sampler never returns). -/
theorem flip_n_spec (p : Pattern) (k : Nat) (idx : List Nat) :
    (isBipolar p → idx.Nodup → (∀ i ∈ idx, i < p.length) → idx.length = k →
      k ≤ p.length →
      ∃ q, (flip_n p k idx).1 = Except.ok q ∧
        q.length = p.length ∧
        (∀ i ∈ idx, q.getD i 0 = -(p.getD i 0)) ∧
        (∀ i, i ∉ idx → q.getD i 0 = p.getD i 0) ∧
        (diff_positions p q).card = k) ∧
    (p.length < k → (flip_n p k idx).1 = Except.error HopfieldError.invalidParameter) := by
  constructor
  · intro hb hnd hlt hlen hk
    refine ⟨assignAt p idx (idx.map (fun i => -(p.getD i 0))), ?_, assignAt_length _ _ _,
      ?_, ?_, ?_⟩
    · unfold flip_n
      rw [if_pos hk]
    · intro i hi
      exact assignAt_getD_map _ p 0 hnd hi (hlt i hi)
    · intro i hi
      exact assignAt_getD_of_not_mem _ p 0 hi
    · rw [show diff_positions p (assignAt p idx (idx.map (fun i => -(p.getD i 0)))) =
          idx.toFinset from ?_, List.toFinset_card_of_nodup hnd, hlen]
      ext j
      simp only [diff_positions, Finset.mem_filter, Finset.mem_range, List.mem_toFinset]
      constructor
      · rintro ⟨hj, hne⟩
        by_contra hnm
        exact hne (assignAt_getD_of_not_mem _ p 0 hnm).symm
      · intro hj
        refine ⟨hlt j hj, ?_⟩
        rw [assignAt_getD_map _ p 0 hnd hj (hlt j hj)]
        rcases isBipolar_getD hb (hlt j hj) with h | h <;> rw [h] <;> norm_num
  · intro hk
    unfold flip_n
    rw [if_neg (Nat.not_le.mpr hk)]

/-- C5 witness: flipping k = 2 positions (drawn positions 0 and 2) of the
bipolar pattern (1,-1,1,1) yields a pattern differing in exactly 2
positions, and asking for k = 5 > 4 flips of the same pattern fails with
InvalidParameter. -/
theorem flip_n_spec_witness :
    (isBipolar [1, -1, 1, 1] ∧ ([0, 2] : List Nat).Nodup ∧
     (∀ i ∈ ([0, 2] : List Nat), i < ([1, -1, 1, 1] : Pattern).length) ∧
     ([0, 2] : List Nat).length = 2 ∧ 2 ≤ ([1, -1, 1, 1] : Pattern).length ∧
     (∃ q, (flip_n [1, -1, 1, 1] 2 [0, 2]).1 = Except.ok q ∧
       q.length = ([1, -1, 1, 1] : Pattern).length ∧
       (∀ i ∈ ([0, 2] : List Nat), q.getD i 0 = -(([1, -1, 1, 1] : Pattern).getD i 0)) ∧
       (∀ i, i ∉ ([0, 2] : List Nat) → q.getD i 0 = ([1, -1, 1, 1] : Pattern).getD i 0) ∧
       (diff_positions [1, -1, 1, 1] q).card = 2)) ∧
    (([1, -1, 1, 1] : Pattern).length < 5 ∧
     (flip_n [1, -1, 1, 1] 5 []).1 = Except.error HopfieldError.invalidParameter) :=
  ⟨⟨by decide, by decide, by decide, by decide, by decide,
    (flip_n_spec [1, -1, 1, 1] 2 [0, 2]).1 (by decide) (by decide) (by decide)
      (by decide) (by decide)⟩,
   by decide,
   (flip_n_spec [1, -1, 1, 1] 5 []).2 (by decide)⟩

/-- C8: `get_noisy_copy` raises InvalidParameter (the source's
ValueError) exactly when the noise level lies outside [0,1]; for a noise
level inside [0,1] it returns normally. -/
theorem get_noisy_copy_error_iff (t : Pattern) (nl : ℚ) (idx : List Nat) (coins : List ℚ) :
    ((get_noisy_copy t nl idx coins).1 = Except.error HopfieldError.invalidParameter ↔
      (nl < 0 ∨ 1 < nl)) ∧
    (0 ≤ nl → nl ≤ 1 → ∃ q, (get_noisy_copy t nl idx coins).1 = Except.ok q) := by
  unfold get_noisy_copy
  by_cases h0 : nl = 0
  · subst h0
    rw [if_pos rfl]
    refine ⟨?_, fun _ _ => ⟨t, rfl⟩⟩
    constructor
    · intro h
      exact absurd h (by simp)
    · intro h
      norm_num at h
  · rw [if_neg h0]
    by_cases hr : nl < 0 ∨ 1 < nl
    · rw [if_pos hr]
      refine ⟨by simp [hr], ?_⟩
      intro hge hle
      rcases hr with hr | hr
      · exact absurd hge (not_le.mpr hr)
      · exact absurd hle (not_le.mpr hr)
    · rw [if_neg hr]
      exact ⟨by simp [hr], fun _ _ => ⟨_, rfl⟩⟩

/-- C8 witness: at noise level 2 the call fails with InvalidParameter; at
noise level 1/2 (inside [0,1]) it returns normally. -/
theorem get_noisy_copy_error_iff_witness :
    ((get_noisy_copy [1, -1] 2 [] []).1 = Except.error HopfieldError.invalidParameter ↔
      ((2 : ℚ) < 0 ∨ 1 < (2 : ℚ))) ∧
    ((0 : ℚ) ≤ 1/2 ∧ (1/2 : ℚ) ≤ 1 ∧
      ∃ q, (get_noisy_copy [1, -1] (1/2) [0] [1]).1 = Except.ok q) :=
  ⟨(get_noisy_copy_error_iff [1, -1] 2 [] []).1,
   by norm_num, by norm_num,
   (get_noisy_copy_error_iff [1, -1] (1/2) [0] [1]).2 (by norm_num) (by norm_num)⟩

/-- C10: on a bipolar template and a noise level in [0,1], with `idx` the
nr_mutations distinct in-range positions drawn by `np.random.choice` and
`coins` the 0/1 draws of `np.random.binomial`, `get_noisy_copy` returns a
pattern of the template's length whose entries are all ±1 and which
differs from the template in at most
nr_mutations = int(round(n * noise_level)) positions; at noise level 0 it
is an exact copy. -/
theorem get_noisy_copy_invariants (t : Pattern) (nl : ℚ) (idx : List Nat) (coins : List ℚ)
    (hb : isBipolar t) (h0 : 0 ≤ nl) (h1 : nl ≤ 1)
    (hlen : idx.length = nr_mutations t.length nl)
    (hcoins : ∀ c ∈ coins, c = 0 ∨ c = 1) :
    ∃ q, (get_noisy_copy t nl idx coins).1 = Except.ok q ∧
      q.length = t.length ∧ isBipolar q ∧
      (diff_positions t q).card ≤ nr_mutations t.length nl ∧
      (nl = 0 → q = t) := by
  by_cases hz : nl = 0
  · refine ⟨t, ?_, rfl, hb, ?_, fun _ => rfl⟩
    · unfold get_noisy_copy
      rw [if_pos hz]
    · simp [diff_positions]
  · have hr : ¬(nl < 0 ∨ 1 < nl) := by
      rintro (hr | hr)
      · exact absurd h0 (not_le.mpr hr)
      · exact absurd h1 (not_le.mpr hr)
    refine ⟨assignAt t idx (coins.map (fun c => c * 2 - 1)), ?_,
      assignAt_length _ _ _, ?_, ?_, fun h => absurd h hz⟩
    · unfold get_noisy_copy
      rw [if_neg hz, if_neg hr]
    · intro x hx
      rcases assignAt_mem hx with hx | hx
      · exact hb x hx
      · obtain ⟨c, hc, rfl⟩ := List.mem_map.mp hx
        rcases hcoins c hc with rfl | rfl
        · right
          norm_num
        · left
          norm_num
    · calc (diff_positions t (assignAt t idx (coins.map (fun c => c * 2 - 1)))).card
          ≤ idx.toFinset.card := by
            apply Finset.card_le_card
            intro j hj
            obtain ⟨hjlen, hjne⟩ := Finset.mem_filter.mp hj
            rw [List.mem_toFinset]
            by_contra hnm
            exact hjne (assignAt_getD_of_not_mem _ t 0 hnm).symm
        _ ≤ idx.length := List.toFinset_card_le idx
        _ = nr_mutations t.length nl := hlen

/-- C10 witness: template (1,-1), noise level 1/2, so
nr_mutations = round(2 · 1/2) = 1; with drawn position 0 and coin 1 the
result is bipolar, of length 2, and differs in at most 1 position. -/
theorem get_noisy_copy_invariants_witness :
    isBipolar [1, -1] ∧ (0 : ℚ) ≤ 1/2 ∧ (1/2 : ℚ) ≤ 1 ∧
    ([0] : List Nat).length = nr_mutations ([1, -1] : Pattern).length (1/2) ∧
    (∀ c ∈ ([1] : List ℚ), c = 0 ∨ c = 1) ∧
    (∃ q, (get_noisy_copy [1, -1] (1/2) [0] [1]).1 = Except.ok q ∧
      q.length = ([1, -1] : Pattern).length ∧ isBipolar q ∧
      (diff_positions [1, -1] q).card ≤ nr_mutations ([1, -1] : Pattern).length (1/2) ∧
      ((1/2 : ℚ) = 0 → q = [1, -1])) :=
  ⟨by decide, by norm_num, by norm_num,
   by norm_num [nr_mutations, pyRound],
   by decide,
   get_noisy_copy_invariants [1, -1] (1/2) [0] [1] (by decide) (by norm_num)
     (by norm_num) (by norm_num [nr_mutations, pyRound]) (by decide)⟩

theorem np_sign_pos {x : ℚ} (h : 0 < x) : np_sign x = 1 := if_pos h

theorem np_sign_neg {x : ℚ} (h : x < 0) : np_sign x = -1 := by
  unfold np_sign
  rw [if_neg (by linarith), if_pos h]

theorem getD_eq_getElem_of_lt {α : Type} (l : List α) (d : α) {i : Nat} (h : i < l.length) :
    l.getD i d = l[i] := by
  rw [List.getD_eq_getElem?_getD, List.getElem?_eq_getElem h]
  rfl

theorem step_single_pattern (p : Pattern) (hb : isBipolar p) (h3 : 3 ≤ p.length) :
    (HopfieldNetwork.step ⟨p.length, hebb_weights [p] p.length, p⟩).state = p := by
  have hlen3 : (3 : ℚ) ≤ (p.length : ℚ) := by exact_mod_cast h3
  have hN0 : (0 : ℚ) < (p.length : ℚ) := by linarith
  apply List.ext_getElem
  · simp [HopfieldNetwork.step]
  intro i h1 h2
  have hiN : i < p.length := h2
  show ((List.range p.length).map
    (fun i => np_sign (local_field ⟨p.length, hebb_weights [p] p.length, p⟩ i)))[i] = p[i]
  rw [List.getElem_map, List.getElem_range, ← getD_eq_getElem_of_lt p 0 hiN]
  have hrow : (hebb_weights [p] p.length).getD i []
      = (List.range p.length).map (fun j => hebb_entry [p] p.length i j) :=
    getD_map_range _ [] hiN
  have hsum : local_field ⟨p.length, hebb_weights [p] p.length, p⟩ i
      = ∑ j ∈ Finset.range p.length,
          (if i = j then 0 else p.getD i 0 / p.length) := by
    unfold local_field
    apply Finset.sum_congr rfl
    intro j hj
    rw [hrow, getD_map_range _ 0 (Finset.mem_range.mp hj)]
    unfold hebb_entry
    by_cases hij : i = j
    · simp [hij]
    · rw [if_neg hij, if_neg hij]
      simp only [List.map_cons, List.map_nil, List.sum_cons, List.sum_nil, add_zero]
      rcases isBipolar_getD hb (Finset.mem_range.mp hj) with h | h <;> rw [h] <;> ring
  rw [hsum]
  have hsplit : ∀ j, (if i = j then (0:ℚ) else p.getD i 0 / p.length)
      = p.getD i 0 / p.length - (if i = j then p.getD i 0 / p.length else 0) := by
    intro j
    by_cases hij : i = j <;> simp [hij]
  rw [Finset.sum_congr rfl (fun j _ => hsplit j), Finset.sum_sub_distrib,
    Finset.sum_const, Finset.card_range, Finset.sum_ite_eq,
    if_pos (Finset.mem_range.mpr hiN), nsmul_eq_mul]
  have hval : (p.length : ℚ) * (p.getD i 0 / p.length) - p.getD i 0 / p.length
      = p.getD i 0 * (((p.length : ℚ) - 1) / p.length) := by
    field_simp
    ring
  rw [hval]
  have hfrac : (0 : ℚ) < ((p.length : ℚ) - 1) / (p.length : ℚ) :=
    div_pos (by linarith) hN0
  rcases isBipolar_getD hb hiN with hc | hc <;> rw [hc]
  · rw [one_mul, np_sign_pos hfrac]
  · rw [np_sign_neg (by linarith)]

/-- C1: after storing a single bipolar pattern p (with at least 3
elements) under the zero-diagonal Hebbian rule and setting the state to
p, one synchronous `step()` leaves the state at p: p is a fixed point of
its own one-pattern network. -/
theorem single_pattern_fixed_point (p : Pattern) (net : HopfieldNetwork)
    (hb : isBipolar p) (h3 : 3 ≤ p.length) (hsz : net.nrNeurons = p.length) :
    ((((net.store_patterns [p]).1).set_state_from_pattern p).1).step.state = p := by
  have hstore : (net.store_patterns [p]).1
      = { net with weights := hebb_weights [p] net.nrNeurons } := by
    unfold HopfieldNetwork.store_patterns
    rw [if_pos (by intro q hq; rw [List.mem_singleton.mp hq]; exact hsz.symm)]
  have hproj : p.map (fun x => if 0 ≤ x then (1 : ℚ) else -1) = p := by
    have hid : ∀ x ∈ p, (if 0 ≤ x then (1 : ℚ) else -1) = x := by
      intro x hx
      rcases hb x hx with h | h <;> rw [h] <;> norm_num
    rw [List.map_congr_left hid]
    exact List.map_id' p
  have hset : (({ net with weights := hebb_weights [p] net.nrNeurons } :
      HopfieldNetwork).set_state_from_pattern p).1
      = { net with weights := hebb_weights [p] net.nrNeurons, state := p } := by
    unfold HopfieldNetwork.set_state_from_pattern
    rw [if_pos hsz.symm]
    rw [hproj]
  rw [hstore, hset, hsz]
  exact step_single_pattern p hb h3

/-- C1 witness: at p = (1,-1,1) stored in a fresh 3-neuron network, one
step from state p returns p. -/
theorem single_pattern_fixed_point_witness :
    isBipolar [1, -1, 1] ∧ 3 ≤ ([1, -1, 1] : Pattern).length ∧
    (HopfieldNetwork.new 3 [1, 1, 1]).nrNeurons = ([1, -1, 1] : Pattern).length ∧
    (((((HopfieldNetwork.new 3 [1, 1, 1]).store_patterns
        [[1, -1, 1]]).1).set_state_from_pattern [1, -1, 1]).1).step.state = [1, -1, 1] :=
  ⟨by decide, by decide, by decide,
   single_pattern_fixed_point [1, -1, 1] (HopfieldNetwork.new 3 [1, 1, 1])
     (by decide) (by decide) (by decide)⟩
